import Mathlib

/-
Verification of the AzureAI-RAG pipeline (local mode) against its
natural-language specification.

The development shallowly embeds the Python sources:
  app/preprocessing/chunker.py   (chunk_text and its sentence loop)
  app/embeddings/embedder.py     (get_embeddings, store_in_local_faiss)
  app/retrieval/retriever.py     (search_chunks_local, get_top_k_chunks)
  main.py                        (step 4: hand-off from chunker to embedder)

Modelling conventions:
  - Vector components are exact integers (the claims under study concern
    exact ranking, exact dimension checks and exact distance zero, so the
    embedding uses exact arithmetic in place of float32).
  - File-system state for the local FAISS index is an explicit
    Option FaissStore value: none models missing or unreadable files.
  - A Python call that can raise is embedded as a function returning the
    caught-or-propagated outcome explicitly; every try/except boundary of
    the source is reproduced at the same place.
-/

/-- Whitespace as Python str.split() treats it (space, tab, newline,
carriage return). -/
def isPySpace (ch : Char) : Bool :=
  (ch == ' ') || (ch == '\t') || (ch == '\n') || (ch == '\r')

/-- Counts maximal nonempty runs of non-whitespace characters; the flag
records whether the previous character was inside such a run. -/
def countTokensAux : List Char → Bool → Nat
  | [], _ => 0
  | ch :: cs, inWord =>
    if isPySpace ch then countTokensAux cs false
    else (if inWord then 0 else 1) + countTokensAux cs true

/-- Python len(sentence.split()): the number of maximal nonempty
whitespace-delimited tokens of a sentence (chunker.py line 35). -/
def pyTokens (s : String) : Nat :=
  countTokensAux s.data false

/-- Python sum(len(s.split()) for s in current_chunk) (chunker.py line 46). -/
def sumTokens (c : List String) : Nat :=
  (c.map pyTokens).sum

/-- Python slice l[-n:] on a list, for a nonnegative n.  For n = 0 the
slice l[-0:] is l[0:], the whole list; for n >= 1 it is the last
min(n, len(l)) elements (chunker.py line 44). -/
def pySliceLast (l : List α) (n : Nat) : List α :=
  if n = 0 then l else l.drop (l.length - n)

/-- The specification's phrase "the last min(v, len(l)) sentences of l":
drop all but the final v elements.  Unlike pySliceLast this yields [] at
v = 0.  Used only to state claims in the spec's own words. -/
def lastSentences (l : List String) (v : Nat) : List String :=
  l.drop (l.length - v)

/-- The sentence loop of chunk_text (chunker.py lines 33 to 46), state
passed explicitly: accumulated chunks (as sentence lists), the current
chunk and its running token count.  A sentence that fits is appended to
the current chunk; otherwise the current chunk is closed, the next chunk
is seeded with the Python slice current_chunk[-overlap:], the sentence is
appended and the token count recomputed. -/
def chunkLoop (maxT ov : Nat) :
    List String → List (List String) → List String → Nat →
    List (List String) × List String
  | [], chunks, cur, _ => (chunks, cur)
  | s :: rest, chunks, cur, tok =>
    let tc := pyTokens s
    if tok + tc ≤ maxT then
      chunkLoop maxT ov rest chunks (cur ++ [s]) (tok + tc)
    else
      let cur2 := pySliceLast cur ov ++ [s]
      chunkLoop maxT ov rest (chunks ++ [cur]) cur2 (sumTokens cur2)

/-- chunk_text at the sentence level: run the loop from the empty state and
flush the final nonempty current chunk (chunker.py lines 27 to 50).  The
input is the sentence list produced by nltk sent_tokenize, which is an
external library and is treated as the loop's input here. -/
def chunkSentenceLists (sentences : List String) (maxT ov : Nat) :
    List (List String) :=
  let p := chunkLoop maxT ov sentences [] [] 0
  if p.2 = [] then p.1 else p.1 ++ [p.2]

/-- chunk_text (chunker.py line 14): each finished chunk is the space join
" ".join(current_chunk) of its sentences. -/
def chunk_text (sentences : List String) (maxT ov : Nat) : List String :=
  (chunkSentenceLists sentences maxT ov).map (fun c => String.intercalate " " c)

/-- get_embeddings (embedder.py lines 79 to 97): the loop appends one
embedding per chunk, in input order.  The per-item embedder (local model
or Azure, chosen by the use_azure flag) is the parameter embedOne; on a
per-item failure the source's embedder returns the empty list, which
embedOne models by returning []. -/
def get_embeddings (embedOne : String → List Int) (chunks : List String) :
    List (List Int) :=
  chunks.map embedOne

/-- The on-disk local FAISS state: the index vectors (faiss.index) and the
pickled chunk list (id_to_chunk.pkl), as written by store_in_local_faiss. -/
structure FaissStore where
  vecs : List (List Int)
  chunks : List String
  deriving DecidableEq

/-- Python exceptions that can escape store_in_local_faiss, which has no
try/except: embeddings[0] on an empty batch raises IndexError; np.array on
a ragged batch raises ValueError. -/
inductive PyErr where
  | indexError
  | valueError
  deriving DecidableEq

/-- store_in_local_faiss (embedder.py lines 130 to 154).  The function
builds a fresh IndexFlatL2 of dimension len(embeddings[0]), adds the whole
batch, and writes both files, replacing whatever was stored before; the
previous on-disk state prev is never read.  Returns the raised exception
(if any) together with the on-disk state after the call: on an exception
nothing has been written yet, so the state is still prev. -/
def store_in_local_faiss (chunks : List String) (embeddings : List (List Int))
    (prev : Option FaissStore) : Option PyErr × Option FaissStore :=
  match embeddings with
  | [] => (some PyErr.indexError, prev)
  | e0 :: rest =>
    if (e0 :: rest).all (fun e => e.length == e0.length) then
      (none, some ⟨e0 :: rest, chunks⟩)
    else
      (some PyErr.valueError, prev)

/-- Squared Euclidean distance, the metric of faiss.IndexFlatL2
(embedder.py line 141). -/
def sqDist : List Int → List Int → Int
  | x :: xs, y :: ys => (x - y) * (x - y) + sqDist xs ys
  | _, _ => 0

/-- The ranking computed by IndexFlatL2.search: indices of the stored
vectors ordered by nondecreasing squared distance to the query (exhaustive
scan; ties resolved toward the lower index). -/
def faissRank (vecs : List (List Int)) (q : List Int) : List Nat :=
  List.insertionSort
    (fun i j => sqDist q (vecs.getD i []) ≤ sqDist q (vecs.getD j []))
    (List.range vecs.length)

/-- The label row returned by index.search(query, k): always exactly k
labels, the ranked indices first, padded with -1 when the index holds
fewer than k vectors. -/
def faissIndices (vecs : List (List Int)) (q : List Int) (k : Nat) : List Int :=
  ((faissRank vecs q).take k).map (fun (i : Nat) => (i : Int)) ++
    List.replicate (k - vecs.length) (-1)

/-- Python list indexing chunks[i] with an Int index: nonnegative indices
read from the front, negative indices from the back (so -1 is the last
element); out of range yields none (IndexError). -/
def pyGet (l : List α) (i : Int) : Option α :=
  if 0 ≤ i then l[i.toNat]?
  else if (-i).toNat ≤ l.length then l[l.length - (-i).toNat]? else none

/-- The query value handed to search_chunks_local.  The source is
dynamically typed: a flat vector (vec) is what the docstring expects, but
get_top_k_chunks actually passes the whole list returned by
get_embeddings, a list of vectors (mat). -/
inductive EmbArg where
  | vec (v : List Int)
  | mat (m : List (List Int))
  deriving DecidableEq

/-- search_chunks_local (retriever.py lines 55 to 78).  The whole body is
one try/except returning [] on any exception.  The Bool records whether
index.search was invoked (the files were read and a query attempted):
  - none: faiss.read_index raises (files missing or corrupt), caught, no
    search happens;
  - mat argument: np.array([query_embedding]) is 3-dimensional and
    index.search raises on its shape, caught;
  - vec of the wrong length: index.search asserts the query dimension
    equals the index dimension and raises, caught;
  - otherwise the label row is looked up in the pickled chunk list, and a
    failed lookup (IndexError) is caught, yielding []. -/
def search_chunks_local (st : Option FaissStore) (q : EmbArg) (k : Nat) :
    List String × Bool :=
  match st with
  | none => ([], false)
  | some store =>
    match q with
    | EmbArg.mat _ => ([], true)
    | EmbArg.vec v =>
      if v.length = (store.vecs.headD []).length then
        match (faissIndices store.vecs v k).mapM (pyGet store.chunks) with
        | some r => (r, true)
        | none => ([], true)
      else ([], true)

/-- search_chunks_azure (retriever.py lines 26 to 53): the remote service
is an opaque responder; when it is unreachable (none) the client raises,
the except branch catches and returns []. -/
def search_chunks_azure (svc : Option (EmbArg → Nat → List String))
    (q : EmbArg) (k : Nat) : List String :=
  match svc with
  | none => []
  | some f => f q k

/-- get_top_k_chunks, local branch (retriever.py lines 80 to 95): the
query is embedded with get_embeddings(chunks=[query]) and the resulting
list of embeddings (not a single vector) is passed straight to
search_chunks_local; there is no guard on the embedding. -/
def get_top_k_chunks (embedOne : String → List Int) (st : Option FaissStore)
    (query : String) (k : Nat) : List String × Bool :=
  search_chunks_local st (EmbArg.mat (get_embeddings embedOne [query])) k

/-- main.py step 4 (lines 43 to 48): process_extracted_files returns a
dict mapping filename to that file's chunk list (insertion ordered,
modelled as an association list), and main passes that dict itself as the
chunks argument of get_embeddings and store_embeddings.  Iterating a
Python dict yields its keys, so the sequence of strings the embedding
provider receives is the filename list. -/
def mainEmbedderInput (allChunks : List (String × List String)) : List String :=
  allChunks.map Prod.fst

/-- The list of chunk strings the Chunker produced, in order: what the
specification's data-flow sentence says is handed to the embedding
provider. -/
def chunkerChunkList (allChunks : List (String × List String)) : List String :=
  (allChunks.map Prod.snd).flatten

/-- The pairs stored in step 4: dict keys zipped with their embeddings. -/
def mainStorePairs (embedOne : String → List Int)
    (allChunks : List (String × List String)) : List (String × List Int) :=
  (mainEmbedderInput allChunks).zip
    (get_embeddings embedOne (mainEmbedderInput allChunks))

/-- The seeding relation between consecutive chunks as the code computes
it: the later chunk is the Python slice of the earlier one followed by the
sentence that forced the split and whatever was appended afterwards. -/
def seededFrom (v : Nat) (a b : List String) : Prop :=
  ∃ s rest, b = pySliceLast a v ++ s :: rest

/-- C1 counterexample.  The claim predicts that storing a 3-dimensional
batch into an index holding a 2-dimensional entry fails with a
DimensionMismatch error and leaves the old entry in place, and that a
matching-dimension batch is appended.  The code does neither: both calls
succeed and the on-disk state afterwards holds exactly the new batch. -/
theorem store_dimension_claim_cex :
    store_in_local_faiss ["c"] [[1, 2, 3]] (some ⟨[[1, 2]], ["a"]⟩) =
      (none, some ⟨[[1, 2, 3]], ["c"]⟩) ∧
    (store_in_local_faiss ["c"] [[1, 2, 3]] (some ⟨[[1, 2]], ["a"]⟩)).2 ≠
      some ⟨[[1, 2]], ["a"]⟩ ∧
    store_in_local_faiss ["c"] [[3, 4]] (some ⟨[[1, 2]], ["a"]⟩) =
      (none, some ⟨[[3, 4]], ["c"]⟩) ∧
    (store_in_local_faiss ["c"] [[3, 4]] (some ⟨[[1, 2]], ["a"]⟩)).2 ≠
      some ⟨[[1, 2], [3, 4]], ["a", "c"]⟩ := by
  decide

/-- A nonempty batch whose rows all share the head row's length passes the
np.array construction, so store_in_local_faiss succeeds and writes exactly
that batch. -/
theorem store_rect_ok (chunks : List String) (e0 : List Int)
    (es : List (List Int)) (prev : Option FaissStore)
    (hrect : ∀ e ∈ es, e.length = e0.length) :
    store_in_local_faiss chunks (e0 :: es) prev =
      (none, some ⟨e0 :: es, chunks⟩) := by
  have hall : ((e0 :: es).all (fun e => e.length == e0.length)) = true := by
    simp only [List.all_eq_true, beq_iff_eq]
    intro e he
    rcases List.mem_cons.mp he with h | h
    · rw [h]
    · exact hrect e h
  simp [store_in_local_faiss, hall]

/-- C1 (amended): store_in_local_faiss never compares the batch against
the previously stored dimension; any nonempty rectangular batch succeeds
and the on-disk index afterwards holds exactly that batch, whatever was
stored before (the files are overwritten, not appended to). -/
theorem store_in_local_faiss_overwrites (chunks : List String)
    (e0 : List Int) (es : List (List Int)) (prev : Option FaissStore)
    (hrect : ∀ e ∈ es, e.length = e0.length) :
    store_in_local_faiss chunks (e0 :: es) prev =
      (none, some ⟨e0 :: es, chunks⟩) :=
  store_rect_ok chunks e0 es prev hrect

/-- C1 witness: a concrete overwrite, the prior 2-dimensional entry
replaced by a 3-dimensional batch. -/
theorem store_in_local_faiss_overwrites_witness :
    store_in_local_faiss ["c"] [[1, 2, 3]] (some ⟨[[1, 2]], ["a"]⟩) =
      (none, some ⟨[[1, 2, 3]], ["c"]⟩) :=
  store_in_local_faiss_overwrites ["c"] [1, 2, 3] []
    (some ⟨[[1, 2]], ["a"]⟩) (by decide)

/-- C2: get_embeddings returns exactly one embedding per input chunk, in
input order (position i of the output is the embedding of position i of
the input), and the empty input yields the empty output.  A failed item is
represented by its embedder returning [], which still occupies its
position. -/
theorem get_embeddings_preserves_length_order (embedOne : String → List Int)
    (chunks : List String) :
    (get_embeddings embedOne chunks).length = chunks.length ∧
    (∀ i : Nat, (get_embeddings embedOne chunks)[i]? =
      (chunks[i]?).map embedOne) ∧
    get_embeddings embedOne [] = [] := by
  refine ⟨List.length_map chunks embedOne, ?_, rfl⟩
  intro i
  exact List.getElem?_map embedOne chunks i

/-- C4 counterexample.  With an embedder that fails (returns the empty
vector) and an index present on disk, get_top_k_chunks does return an
empty result, but the index is read and index.search invoked (second
component true): the claim's "without querying the vector index" is
false.  There is no guard; the emptiness comes from the caught exception
inside search_chunks_local. -/
theorem get_top_k_guard_cex :
    ¬ ((get_top_k_chunks (fun _ => ([] : List Int))
          (some ⟨[[0]], ["a"]⟩) "q" 3).1 = [] ∧
       (get_top_k_chunks (fun _ => ([] : List Int))
          (some ⟨[[0]], ["a"]⟩) "q" 3).2 = false) := by
  decide

/-- C4 (amended): when embedding the query fails, get_top_k_chunks (local
branch) returns the empty result, but whenever index files are present the
index is still read and searched (the search invocation flag equals
st.isSome); the empty result arises from the exception caught inside
search_chunks_local, not from a pre-search guard. -/
theorem get_top_k_failed_embedding_empty (embedOne : String → List Int)
    (st : Option FaissStore) (query : String) (k : Nat)
    (hfail : embedOne query = []) :
    (get_top_k_chunks embedOne st query k).1 = [] ∧
    (get_top_k_chunks embedOne st query k).2 = st.isSome := by
  cases st with
  | none => exact ⟨rfl, rfl⟩
  | some store => exact ⟨rfl, rfl⟩

/-- C4 witness: a concrete failing embedder against a concrete on-disk
index. -/
theorem get_top_k_failed_embedding_empty_witness :
    (get_top_k_chunks (fun _ => ([] : List Int))
        (some ⟨[[0]], ["a"]⟩) "q" 3).1 = [] ∧
    (get_top_k_chunks (fun _ => ([] : List Int))
        (some ⟨[[0]], ["a"]⟩) "q" 3).2 = (some (⟨[[0]], ["a"]⟩ : FaissStore)).isSome :=
  get_top_k_failed_embedding_empty (fun _ => ([] : List Int))
    (some ⟨[[0]], ["a"]⟩) "q" 3 rfl

/-- C7: when the index is unavailable the retriever degrades to an empty
result and nothing escapes its boundary: search_chunks_local with missing
or corrupt local files returns [] (and never reaches index.search),
search_chunks_azure with an unreachable service returns [], and
get_top_k_chunks over the missing local index returns [].  All three are
total functions: every exception of the source is caught inside them. -/
theorem retriever_unavailable_empty :
    (∀ (q : EmbArg) (k : Nat), search_chunks_local none q k = ([], false)) ∧
    (∀ (q : EmbArg) (k : Nat), search_chunks_azure none q k = []) ∧
    (∀ (embedOne : String → List Int) (query : String) (k : Nat),
      get_top_k_chunks embedOne none query k = ([], false)) :=
  ⟨fun _ _ => rfl, fun _ _ => rfl, fun _ _ _ => rfl⟩

/-- C8: evaluation at the failing input.  With one extracted file doc.txt
whose chunk list is ["hello world"], the strings main hands to the
embedding provider (and zips with the vectors for storage) are the dict
keys, that is the filename list ["doc.txt"], not the chunk list the
Chunker produced. -/
theorem main_pipeline_embeds_filenames :
    mainEmbedderInput [("doc.txt", ["hello world"])] = ["doc.txt"] ∧
    chunkerChunkList [("doc.txt", ["hello world"])] = ["hello world"] ∧
    mainEmbedderInput [("doc.txt", ["hello world"])] ≠
      chunkerChunkList [("doc.txt", ["hello world"])] ∧
    mainStorePairs (fun _ => [7]) [("doc.txt", ["hello world"])] =
      [("doc.txt", [7])] := by
  decide

/-- The Python slice of an empty list is empty whatever the bound. -/
theorem pySliceLast_nil (n : Nat) : pySliceLast ([] : List String) n = [] := by
  cases n <;> simp [pySliceLast]

/-- For v >= 1 the Python slice l[-v:] is exactly the specification's
"last min(v, len(l)) sentences". -/
theorem pySliceLast_eq_lastSentences (l : List String) (v : Nat) (hv : 1 ≤ v) :
    pySliceLast l v = lastSentences l v := by
  unfold pySliceLast lastSentences
  rw [if_neg (by omega)]

/-- Extending the later chunk on the right preserves the seeding
relation. -/
theorem seededFrom_append (v : Nat) (a b : List String) (t : String)
    (h : seededFrom v a b) : seededFrom v a (b ++ [t]) := by
  obtain ⟨s, rest, hb⟩ := h
  exact ⟨s, rest ++ [t], by rw [hb]; simp⟩

/-- The chunk accumulator of the loop is append-only: chunks already
emitted are carried through unchanged in front of whatever the remaining
sentences produce. -/
theorem chunkLoop_acc (maxT ov : Nat) :
    ∀ (sents : List String) (pre chunks : List (List String))
      (cur : List String) (tok : Nat),
    chunkLoop maxT ov sents (pre ++ chunks) cur tok =
      (pre ++ (chunkLoop maxT ov sents chunks cur tok).1,
       (chunkLoop maxT ov sents chunks cur tok).2) := by
  intro sents
  induction sents with
  | nil => intro pre chunks cur tok; rfl
  | cons s rest ih =>
    intro pre chunks cur tok
    simp only [chunkLoop]
    by_cases hfit : tok + pyTokens s ≤ maxT
    · rw [if_pos hfit, if_pos hfit, ih]
    · rw [if_neg hfit, if_neg hfit, List.append_assoc, ih]

/-- Loop invariant for the overlap-seeding claim: if every pair of
consecutive chunks among the emitted ones plus the pending current chunk
is related by seededFrom, the same holds after consuming any further
sentences. -/
theorem chunkLoop_chain (maxT v : Nat) :
    ∀ (sents : List String) (chunks : List (List String))
      (cur : List String) (tok : Nat),
    List.Chain' (seededFrom v) (chunks ++ [cur]) →
    List.Chain' (seededFrom v)
      ((chunkLoop maxT v sents chunks cur tok).1 ++
        [(chunkLoop maxT v sents chunks cur tok).2]) := by
  intro sents
  induction sents with
  | nil => intro chunks cur tok h; exact h
  | cons s rest ih =>
    intro chunks cur tok h
    simp only [chunkLoop]
    by_cases hfit : tok + pyTokens s ≤ maxT
    · rw [if_pos hfit]
      apply ih
      obtain ⟨h1, _, h3⟩ := List.chain'_append.mp h
      refine List.chain'_append.mpr ⟨h1, List.chain'_singleton _, ?_⟩
      intro x hx y hy
      rw [List.head?_cons, Option.mem_some_iff] at hy
      subst hy
      exact seededFrom_append v x cur s (h3 x hx cur (by simp))
    · rw [if_neg hfit]
      apply ih
      refine List.chain'_append.mpr ⟨h, List.chain'_singleton _, ?_⟩
      intro x hx y hy
      rw [List.getLast?_append] at hx
      simp only [List.getLast?_singleton, Option.or_some, Option.mem_some_iff] at hx
      rw [List.head?_cons, Option.mem_some_iff] at hy
      subst hx
      subst hy
      exact ⟨s, [], rfl⟩

/-- Every pair of consecutive chunks produced by the chunker is related by
the code's seeding relation. -/
theorem chunkSentenceLists_chain (sentences : List String) (maxT v : Nat) :
    List.Chain' (seededFrom v) (chunkSentenceLists sentences maxT v) := by
  have h := chunkLoop_chain maxT v sentences [] [] 0
    (by simpa using List.chain'_singleton ([] : List String))
  unfold chunkSentenceLists
  by_cases h2 : (chunkLoop maxT v sentences [] [] 0).2 = []
  · rw [if_pos h2]
    exact (List.chain'_append.mp h).1
  · rw [if_neg h2]
    exact h

/-- C3 (amended): for overlap values v >= 1, whenever a split occurs
between chunk i and chunk i+1, chunk i+1 begins with the last
min(v, len(chunk i)) sentences of chunk i followed by the sentence that
forced the split.  (At v = 0 the Python slice [-0:] keeps the whole
previous chunk instead of none of it; see the counterexample.) -/
theorem chunk_overlap_seeding (sentences : List String) (maxT v : Nat)
    (hv : 1 ≤ v) (i : Nat)
    (hi : i + 1 < (chunkSentenceLists sentences maxT v).length) :
    ∃ s rest, (chunkSentenceLists sentences maxT v).getD (i + 1) [] =
      lastSentences ((chunkSentenceLists sentences maxT v).getD i []) v ++
        s :: rest := by
  have hch := chunkSentenceLists_chain sentences maxT v
  rw [List.chain'_iff_get] at hch
  have hrel := hch i (by omega)
  obtain ⟨s, rest, hb⟩ := hrel
  refine ⟨s, rest, ?_⟩
  rw [List.getD_eq_getElem _ _ hi, List.getD_eq_getElem _ _ (by omega),
    ← pySliceLast_eq_lastSentences _ v hv]
  rw [List.get_eq_getElem, List.get_eq_getElem] at hb
  exact hb

/-- C3 witness: sentences a and b with token budget 1 and overlap 1 split
into two chunks, the second seeded with the last sentence of the first. -/
theorem chunk_overlap_seeding_witness :
    1 ≤ 1 ∧ 0 + 1 < (chunkSentenceLists ["a", "b"] 1 1).length ∧
    (∃ s rest, (chunkSentenceLists ["a", "b"] 1 1).getD (0 + 1) [] =
      lastSentences ((chunkSentenceLists ["a", "b"] 1 1).getD 0 []) 1 ++
        s :: rest) :=
  ⟨by decide, by decide,
    chunk_overlap_seeding ["a", "b"] 1 1 (by decide) 0 (by decide)⟩

/-- C3 counterexample.  At overlap v = 0 the claim predicts that the chunk
after a split begins with the last zero sentences of the previous chunk,
that is, with the splitting sentence itself.  On sentences a and b with
token budget 1 the code produces chunks [a] and [a, b]: the Python slice
current_chunk[-0:] keeps the whole previous chunk, so the second chunk
starts with a, not b. -/
theorem chunk_overlap_zero_cex :
    chunkSentenceLists ["a", "b"] 1 0 = [["a"], ["a", "b"]] ∧
    ¬ ∃ rest, (chunkSentenceLists ["a", "b"] 1 0).getD 1 [] =
      lastSentences ((chunkSentenceLists ["a", "b"] 1 0).getD 0 []) 0 ++
        "b" :: rest := by
  refine ⟨by decide, ?_⟩
  rintro ⟨rest, h⟩
  have heval : (chunkSentenceLists ["a", "b"] 1 0).getD 1 [] = ["a", "b"] := by
    decide
  have hseed : lastSentences ((chunkSentenceLists ["a", "b"] 1 0).getD 0 []) 0
      = [] := by decide
  rw [heval, hseed, List.nil_append] at h
  have : "a" = "b" := by injection h
  exact absurd this (by decide)

/-- Membership in the loop state is preserved: a sentence already placed
in an emitted chunk, or sitting in the current chunk, still appears in an
emitted chunk or in the current chunk after any further sentences are
consumed. -/
theorem chunkLoop_mem_preserve (maxT ov : Nat) :
    ∀ (sents : List String) (chunks : List (List String))
      (cur : List String) (tok : Nat) (s : String),
    ((∃ c ∈ chunks, s ∈ c) ∨ s ∈ cur) →
    ((∃ c ∈ (chunkLoop maxT ov sents chunks cur tok).1, s ∈ c) ∨
      s ∈ (chunkLoop maxT ov sents chunks cur tok).2) := by
  intro sents
  induction sents with
  | nil => intro chunks cur tok s h; exact h
  | cons t rest ih =>
    intro chunks cur tok s h
    simp only [chunkLoop]
    by_cases hfit : tok + pyTokens t ≤ maxT
    · rw [if_pos hfit]
      apply ih
      rcases h with h | h
      · exact Or.inl h
      · exact Or.inr (List.mem_append_left [t] h)
    · rw [if_neg hfit]
      apply ih
      rcases h with ⟨c, hc, hsc⟩ | h
      · exact Or.inl ⟨c, List.mem_append_left [cur] hc, hsc⟩
      · exact Or.inl ⟨cur, List.mem_append_right chunks (by simp), h⟩

/-- Every sentence consumed by the loop ends up in an emitted chunk or in
the final current chunk. -/
theorem chunkLoop_mem_input (maxT ov : Nat) :
    ∀ (sents : List String) (chunks : List (List String))
      (cur : List String) (tok : Nat) (s : String),
    s ∈ sents →
    ((∃ c ∈ (chunkLoop maxT ov sents chunks cur tok).1, s ∈ c) ∨
      s ∈ (chunkLoop maxT ov sents chunks cur tok).2) := by
  intro sents
  induction sents with
  | nil => intro chunks cur tok s h; exact absurd h (List.not_mem_nil s)
  | cons t rest ih =>
    intro chunks cur tok s h
    rcases List.mem_cons.mp h with heq | hmem
    · subst heq
      simp only [chunkLoop]
      by_cases hfit : tok + pyTokens s ≤ maxT
      · rw [if_pos hfit]
        exact chunkLoop_mem_preserve maxT ov rest chunks (cur ++ [s]) _ s
          (Or.inr (List.mem_append_right cur (by simp)))
      · rw [if_neg hfit]
        exact chunkLoop_mem_preserve maxT ov rest (chunks ++ [cur])
          (pySliceLast cur ov ++ [s]) _ s
          (Or.inr (List.mem_append_right _ (by simp)))
    · simp only [chunkLoop]
      by_cases hfit : tok + pyTokens t ≤ maxT
      · rw [if_pos hfit]; exact ih chunks (cur ++ [t]) _ s hmem
      · rw [if_neg hfit]; exact ih (chunks ++ [cur]) _ _ s hmem

/-- Every input sentence appears, whole, as an element of some produced
chunk. -/
theorem chunk_sentence_mem (sentences : List String) (maxT ov : Nat)
    (s : String) (hs : s ∈ sentences) :
    ∃ c ∈ chunkSentenceLists sentences maxT ov, s ∈ c := by
  have h := chunkLoop_mem_input maxT ov sentences [] [] 0 s hs
  unfold chunkSentenceLists
  by_cases h2 : (chunkLoop maxT ov sentences [] [] 0).2 = []
  · rw [if_pos h2]
    rcases h with ⟨c, hc, hsc⟩ | h
    · exact ⟨c, hc, hsc⟩
    · rw [h2] at h; exact absurd h (List.not_mem_nil s)
  · rw [if_neg h2]
    rcases h with ⟨c, hc, hsc⟩ | h
    · exact ⟨c, List.mem_append_left _ hc, hsc⟩
    · exact ⟨(chunkLoop maxT ov sentences [] [] 0).2,
        List.mem_append_right _ (by simp), h⟩

/-- C9 (amended): a sentence whose token count exceeds maxTokens is never
split: it appears whole as one element of some produced chunk, that chunk
exceeds the token budget, and the call returns normally (chunk_text is a
total function).  The chunk holding it need not consist of that sentence
alone: when a previous chunk exists and overlap is positive, the closing
step seeds the new chunk with overlap sentences before the oversized one
(see the counterexample). -/
theorem oversized_sentence_unsplit (sentences : List String) (maxT ov : Nat)
    (s : String) (hs : s ∈ sentences) (hbig : maxT < pyTokens s) :
    ∃ c ∈ chunkSentenceLists sentences maxT ov,
      s ∈ c ∧ maxT < sumTokens c := by
  obtain ⟨c, hc, hsc⟩ := chunk_sentence_mem sentences maxT ov s hs
  refine ⟨c, hc, hsc, lt_of_lt_of_le hbig ?_⟩
  exact List.single_le_sum (fun x _ => Nat.zero_le x) (pyTokens s)
    (List.mem_map_of_mem pyTokens hsc)

/-- C9 witness: a five-token sentence against budget 2 survives intact
inside an over-budget chunk. -/
theorem oversized_sentence_unsplit_witness :
    "x x x x x" ∈ ["a", "b", "x x x x x"] ∧ 2 < pyTokens "x x x x x" ∧
    ∃ c ∈ chunkSentenceLists ["a", "b", "x x x x x"] 2 1,
      "x x x x x" ∈ c ∧ 2 < sumTokens c :=
  ⟨by decide, by decide,
    oversized_sentence_unsplit ["a", "b", "x x x x x"] 2 1 "x x x x x"
      (by decide) (by decide)⟩

/-- C9 counterexample.  The claim predicts the oversized sentence is
emitted as its own chunk.  With sentences a, b and a five-token sentence,
budget 2 and overlap 1, the output is ["a b", "b x x x x x"]: the chunk
holding the oversized sentence also carries the overlap sentence b, and no
chunk equals the oversized sentence alone. -/
theorem oversized_sentence_own_chunk_cex :
    chunk_text ["a", "b", "x x x x x"] 2 1 = ["a b", "b x x x x x"] ∧
    "x x x x x" ∉ chunk_text ["a", "b", "x x x x x"] 2 1 := by
  decide

/-- C10: when the very first sentence already exceeds the token budget,
the close-and-join step fires on the still-empty accumulator, so the first
chunk of the output is the empty string. -/
theorem first_sentence_oversized_empty_first_chunk (s : String)
    (rest : List String) (maxT ov : Nat) (h : maxT < pyTokens s) :
    (chunk_text (s :: rest) maxT ov).head? = some "" := by
  unfold chunk_text chunkSentenceLists
  have step : chunkLoop maxT ov (s :: rest) [] [] 0 =
      chunkLoop maxT ov rest [[]] [s] (sumTokens [s]) := by
    simp only [chunkLoop]
    rw [if_neg (by omega), pySliceLast_nil]
    rfl
  rw [step]
  have acc := chunkLoop_acc maxT ov rest [[]] [] [s] (sumTokens [s])
  rw [show ([[]] : List (List String)) = [[]] ++ [] from rfl, acc]
  by_cases h2 : (chunkLoop maxT ov rest [] [s] (sumTokens [s])).2 = []
  · rw [if_pos h2]
    simp [String.intercalate]
  · rw [if_neg h2]
    simp [String.intercalate]

/-- C10 witness: a two-token first sentence against budget 1 yields the
empty string as first chunk. -/
theorem first_sentence_oversized_empty_first_chunk_witness :
    1 < pyTokens "x x" ∧ (chunk_text ["x x"] 1 1).head? = some "" :=
  ⟨by decide,
    first_sentence_oversized_empty_first_chunk "x x" [] 1 1 (by decide)⟩

/-- Squared distances are nonnegative. -/
theorem sqDist_nonneg : ∀ (a b : List Int), 0 ≤ sqDist a b
  | [], _ => le_refl 0
  | _ :: _, [] => le_refl 0
  | x :: xs, y :: ys => add_nonneg (mul_self_nonneg (x - y)) (sqDist_nonneg xs ys)

/-- A vector is at squared distance zero from itself. -/
theorem sqDist_self : ∀ (a : List Int), sqDist a a = 0
  | [] => rfl
  | x :: xs => by simp [sqDist, sqDist_self xs]

/-- Between vectors of equal dimension, squared distance zero forces
equality. -/
theorem sqDist_eq_zero : ∀ (a b : List Int),
    a.length = b.length → sqDist a b = 0 → a = b
  | [], [], _, _ => rfl
  | [], _ :: _, hl, _ => by simp at hl
  | _ :: _, [], hl, _ => by simp at hl
  | x :: xs, y :: ys, hl, h => by
    rw [sqDist] at h
    have h1 : (x - y) * (x - y) = 0 := by
      have t1 := mul_self_nonneg (x - y)
      have t2 := sqDist_nonneg xs ys
      linarith
    have h2 : sqDist xs ys = 0 := by
      have t1 := mul_self_nonneg (x - y)
      linarith
    have hxy : x = y := sub_eq_zero.mp (mul_self_eq_zero.mp h1)
    have hrest : xs = ys := sqDist_eq_zero xs ys (by simpa using hl) h2
    rw [hxy, hrest]

/-- An Option-valued map over a list succeeds with the pointwise values
when every item succeeds. -/
theorem mapM_eq_some_map (f : α → Option β) (g : α → β) :
    ∀ l : List α, (∀ a ∈ l, f a = some (g a)) →
      l.mapM f = some (l.map g) := by
  intro l
  induction l with
  | nil => intro _; rfl
  | cons a t ih =>
    intro h
    rw [List.mapM_cons, h a (List.mem_cons_self a t),
      ih (fun x hx => h x (List.mem_cons_of_mem a hx))]
    rfl

/-- Python indexing with a nonnegative in-range index reads from the
front. -/
theorem pyGet_coe (l : List String) (i : Nat) (h : i < l.length) :
    pyGet l (i : Int) = some (l.getD i "") := by
  unfold pyGet
  rw [if_pos (Int.natCast_nonneg i), Int.toNat_ofNat,
    List.getD_eq_getElem l "" h, List.getElem?_eq_getElem h]

/-- Python indexing with -1 on a nonempty list reads the last element. -/
theorem pyGet_neg_one (l : List String) (h : l ≠ []) :
    pyGet l (-1) = some (l.getLastD "") := by
  unfold pyGet
  rw [if_neg (by decide)]
  have hpos : 1 ≤ l.length := List.length_pos.mpr h
  rw [if_pos (by simpa using hpos)]
  rw [show ((-(-1 : Int)).toNat) = 1 by decide]
  rw [← List.getLast?_eq_getElem?, List.getLast?_eq_getLast l h,
    List.getLastD_eq_getLast?, List.getLast?_eq_getLast l h]
  rfl

/-- The total lookup that pyGet performs on the label row of a search over
a nonempty chunk list: nonnegative labels from the front, label -1 mapped
to the last chunk. -/
def pyGetTotal (l : List String) (ii : Int) : String :=
  if 0 ≤ ii then l.getD ii.toNat "" else l.getLastD ""

/-- The FAISS ranking is a permutation of all stored indices. -/
theorem faissRank_perm (vecs : List (List Int)) (q : List Int) :
    (faissRank vecs q).Perm (List.range vecs.length) :=
  List.perm_insertionSort _ _

/-- Every ranked index addresses a stored vector. -/
theorem faissRank_lt (vecs : List (List Int)) (q : List Int) (i : Nat)
    (h : i ∈ faissRank vecs q) : i < vecs.length :=
  List.mem_range.mp ((faissRank_perm vecs q).mem_iff.mp h)

/-- The ranking has one entry per stored vector. -/
theorem faissRank_length (vecs : List (List Int)) (q : List Int) :
    (faissRank vecs q).length = vecs.length := by
  rw [(faissRank_perm vecs q).length_eq, List.length_range]

/-- The ranking is ordered by nondecreasing squared distance to the
query. -/
theorem faissRank_sorted (vecs : List (List Int)) (q : List Int) :
    List.Sorted
      (fun i j => sqDist q (vecs.getD i []) ≤ sqDist q (vecs.getD j []))
      (faissRank vecs q) := by
  letI : IsTotal Nat
      (fun i j => sqDist q (vecs.getD i []) ≤ sqDist q (vecs.getD j [])) :=
    ⟨fun a b => le_total _ _⟩
  letI : IsTrans Nat
      (fun i j => sqDist q (vecs.getD i []) ≤ sqDist q (vecs.getD j [])) :=
    ⟨fun _ _ _ hab hbc => le_trans hab hbc⟩
  exact List.sorted_insertionSort _ _

/-- Reading the chunkerChunkList of all indices: the values of a
successful search are the ranked chunk texts followed by the -1 padding
resolved to the last stored chunk.  This is the evaluated form of
search_chunks_local on a well-formed on-disk state and a query of the
index's dimension. -/
theorem search_vec_eval (vecs : List (List Int)) (chunks : List String)
    (q : List Int) (k : Nat)
    (hlen : chunks.length = vecs.length) (hne : vecs ≠ [])
    (hq : q.length = (vecs.headD []).length) :
    search_chunks_local (some ⟨vecs, chunks⟩) (EmbArg.vec q) k =
      (((faissRank vecs q).take k).map (fun i => chunks.getD i "") ++
        List.replicate (k - vecs.length) (chunks.getLastD ""), true) := by
  have hchne : chunks ≠ [] := by
    have hpos : 0 < vecs.length := List.length_pos.mpr hne
    rw [← hlen] at hpos
    exact List.length_pos.mp hpos
  have hforall : ∀ a ∈ faissIndices vecs q k,
      pyGet chunks a = some (pyGetTotal chunks a) := by
    intro a ha
    rcases List.mem_append.mp ha with ha1 | ha2
    · obtain ⟨i, hi, rfl⟩ := List.mem_map.mp ha1
      have hilt : i < chunks.length := by
        rw [hlen]
        exact faissRank_lt vecs q i (List.mem_of_mem_take hi)
      rw [pyGet_coe chunks i hilt]
      unfold pyGetTotal
      rw [if_pos (Int.natCast_nonneg i), Int.toNat_ofNat]
    · have ha' : a = -1 := (List.mem_replicate.mp ha2).2
      subst ha'
      rw [pyGet_neg_one chunks hchne]
      unfold pyGetTotal
      rw [if_neg (by decide)]
  have hmap : (faissIndices vecs q k).mapM (pyGet chunks) =
      some ((faissIndices vecs q k).map (pyGetTotal chunks)) :=
    mapM_eq_some_map (pyGet chunks) (pyGetTotal chunks) _ hforall
  have hvals : (faissIndices vecs q k).map (pyGetTotal chunks) =
      ((faissRank vecs q).take k).map (fun i => chunks.getD i "") ++
        List.replicate (k - vecs.length) (chunks.getLastD "") := by
    unfold faissIndices
    rw [List.map_append, List.map_map, List.map_replicate]
    have hneg : pyGetTotal chunks (-1) = chunks.getLastD "" := by
      unfold pyGetTotal
      rw [if_neg (by decide)]
    rw [hneg]
    refine congrArg
      (fun t => t ++ List.replicate (k - vecs.length) (chunks.getLastD "")) ?_
    apply List.map_congr_left
    intro i _
    simp only [Function.comp_apply]
    unfold pyGetTotal
    rw [if_pos (Int.natCast_nonneg i), Int.toNat_ofNat]
  unfold search_chunks_local
  dsimp only
  rw [if_pos hq, hmap, hvals]

/-- Reading every position of a list through getD reproduces the list. -/
theorem map_getD_range (l : List String) :
    (List.range l.length).map (fun i => l.getD i "") = l := by
  apply List.ext_getElem
  · simp
  · intro n h1 h2
    simp only [List.getElem_map, List.getElem_range]
    exact List.getD_eq_getElem l "" h2

/-- Taking at least one element preserves the head. -/
theorem take_head (l : List α) (k : Nat) (hk : 1 ≤ k) :
    (l.take k).head? = l.head? := by
  cases l with
  | nil => simp
  | cons a t =>
    cases k with
    | zero => omega
    | succ k => rfl

/-- C5 counterexample.  The claim says a search with k larger than the
index size returns each stored entry at most once.  On an index holding
the single entry a, searching with k = 2 returns ["a", "a"]: FAISS pads
the missing slot with label -1 and Python resolves chunks[-1] to the last
stored chunk, so the entry appears twice. -/
theorem search_k_exceeds_size_cex :
    (search_chunks_local (some ⟨[[0]], ["a"]⟩) (EmbArg.vec [0]) 2).1 =
      ["a", "a"] ∧
    ((search_chunks_local (some ⟨[[0]], ["a"]⟩) (EmbArg.vec [0]) 2).1.count
      "a") = 2 := by
  decide

/-- C5 (amended): searching a well-formed nonempty index with k at least
its size N raises no error and returns a result of length exactly k: the
first N entries are all stored chunks (a permutation of them, ranked by
distance), and the remaining k - N slots are copies of the last stored
chunk, arising from FAISS padding the label row with -1 and Python list
indexing resolving -1 to the last element. -/
theorem search_k_exceeds_size (vecs : List (List Int)) (chunks : List String)
    (q : List Int) (k : Nat)
    (hlen : chunks.length = vecs.length) (hne : vecs ≠ [])
    (hq : q.length = (vecs.headD []).length)
    (hk : vecs.length ≤ k) :
    ((search_chunks_local (some ⟨vecs, chunks⟩) (EmbArg.vec q) k).1.take
      vecs.length).Perm chunks ∧
    (search_chunks_local (some ⟨vecs, chunks⟩) (EmbArg.vec q) k).1.drop
      vecs.length =
      List.replicate (k - vecs.length) (chunks.getLastD "") ∧
    (search_chunks_local (some ⟨vecs, chunks⟩) (EmbArg.vec q) k).1.length = k ∧
    ∀ c ∈ chunks, c ∈ (search_chunks_local (some ⟨vecs, chunks⟩)
      (EmbArg.vec q) k).1 := by
  have heval := search_vec_eval vecs chunks q k hlen hne hq
  rw [heval]
  have htake : (faissRank vecs q).take k = faissRank vecs q :=
    List.take_of_length_le (by rw [faissRank_length]; exact hk)
  rw [htake]
  have hAlen : ((faissRank vecs q).map (fun i => chunks.getD i "")).length =
      vecs.length := by
    rw [List.length_map, faissRank_length]
  have hperm : ((faissRank vecs q).map (fun i => chunks.getD i "")).Perm
      chunks := by
    have h1 := (faissRank_perm vecs q).map (fun i => chunks.getD i "")
    rw [← hlen] at h1
    rw [map_getD_range chunks] at h1
    exact h1
  refine ⟨?_, ?_, ?_, ?_⟩
  · rw [← hAlen, List.take_left]
    exact hperm
  · rw [← hAlen, List.drop_left]
  · rw [List.length_append, List.length_replicate, hAlen]
    omega
  · intro c hc
    exact List.mem_append_left _ (hperm.mem_iff.mpr hc)

/-- C5 witness: one stored entry, k = 2. -/
theorem search_k_exceeds_size_witness :
    ((["a"] : List String).length = ([[0]] : List (List Int)).length ∧
      ([[0]] : List (List Int)) ≠ [] ∧
      ([0] : List Int).length = (([[0]] : List (List Int)).headD []).length ∧
      ([[0]] : List (List Int)).length ≤ 2) ∧
    ((search_chunks_local (some ⟨[[0]], ["a"]⟩) (EmbArg.vec [0]) 2).1.take
      1).Perm ["a"] ∧
    (search_chunks_local (some ⟨[[0]], ["a"]⟩) (EmbArg.vec [0]) 2).1.drop 1 =
      List.replicate 1 ((["a"] : List String).getLastD "") :=
  ⟨⟨by decide, by decide, by decide, by decide⟩,
    (search_k_exceeds_size [[0]] ["a"] [0] 2 (by decide) (by decide)
      (by decide) (by decide)).1,
    (search_k_exceeds_size [[0]] ["a"] [0] 2 (by decide) (by decide)
      (by decide) (by decide)).2.1⟩

/-- C6: storing N entries with pairwise distinct vectors and then
searching with one of the exact stored vectors succeeds end to end: the
store call raises nothing and writes the batch, the searched entry's chunk
text is ranked first, and its squared Euclidean distance to the query is
zero. -/
theorem store_search_roundtrip (chunks : List String)
    (vecs : List (List Int)) (prev : Option FaissStore) (j k : Nat)
    (hlen : chunks.length = vecs.length)
    (hrect : ∀ u ∈ vecs, u.length = (vecs.headD []).length)
    (hnodup : vecs.Nodup)
    (hj : j < vecs.length)
    (hk : 1 ≤ k) :
    store_in_local_faiss chunks vecs prev = (none, some ⟨vecs, chunks⟩) ∧
    (search_chunks_local (some ⟨vecs, chunks⟩)
      (EmbArg.vec (vecs.getD j [])) k).1.head? = some (chunks.getD j "") ∧
    sqDist (vecs.getD j []) (vecs.getD j []) = 0 := by
  have hne : vecs ≠ [] := by
    intro h
    rw [h] at hj
    exact absurd hj (by simp)
  have hstore : store_in_local_faiss chunks vecs prev =
      (none, some ⟨vecs, chunks⟩) := by
    cases vecs with
    | nil => exact absurd rfl hne
    | cons e0 es =>
      exact store_rect_ok chunks e0 es prev
        (fun e he => hrect e (List.mem_cons_of_mem e0 he))
  have hqmem : vecs.getD j [] ∈ vecs := by
    rw [List.getD_eq_getElem vecs [] hj]
    exact List.getElem_mem hj
  have hq : (vecs.getD j []).length = (vecs.headD []).length := hrect _ hqmem
  refine ⟨hstore, ?_, sqDist_self _⟩
  rw [search_vec_eval vecs chunks (vecs.getD j []) k hlen hne hq]
  have hrankne : faissRank vecs (vecs.getD j []) ≠ [] := by
    rw [← List.length_pos, faissRank_length]
    omega
  obtain ⟨h0, t, hrank⟩ : ∃ h0 t, faissRank vecs (vecs.getD j []) = h0 :: t := by
    cases hfr : faissRank vecs (vecs.getD j []) with
    | nil => exact absurd hfr hrankne
    | cons a t => exact ⟨a, t, rfl⟩
  have hjmem : j ∈ faissRank vecs (vecs.getD j []) :=
    (faissRank_perm vecs _).mem_iff.mpr (List.mem_range.mpr hj)
  have hh0mem : h0 ∈ faissRank vecs (vecs.getD j []) := by
    rw [hrank]
    exact List.mem_cons_self h0 t
  have hh0lt : h0 < vecs.length := faissRank_lt vecs _ h0 hh0mem
  have hh0 : h0 = j := by
    by_cases hcase : h0 = j
    · exact hcase
    · have hjt : j ∈ t := by
        rw [hrank] at hjmem
        rcases List.mem_cons.mp hjmem with h | h
        · exact absurd h.symm hcase
        · exact h
      have hsorted := faissRank_sorted vecs (vecs.getD j [])
      rw [hrank] at hsorted
      have hle := List.rel_of_sorted_cons hsorted j hjt
      rw [sqDist_self] at hle
      have hnn := sqDist_nonneg (vecs.getD j []) (vecs.getD h0 [])
      have hzero : sqDist (vecs.getD j []) (vecs.getD h0 []) = 0 :=
        le_antisymm hle hnn
      have hlens : (vecs.getD j []).length = (vecs.getD h0 []).length := by
        rw [hq, hrect (vecs.getD h0 []) ?_]
        rw [List.getD_eq_getElem vecs [] hh0lt]
        exact List.getElem_mem hh0lt
      have heq : vecs.getD j [] = vecs.getD h0 [] :=
        sqDist_eq_zero _ _ hlens hzero
      rw [List.getD_eq_getElem vecs [] hj, List.getD_eq_getElem vecs [] hh0lt]
        at heq
      have hfin : (⟨j, hj⟩ : Fin vecs.length) = ⟨h0, hh0lt⟩ :=
        (hnodup.get_inj_iff).mp (by
          rw [List.get_eq_getElem, List.get_eq_getElem]
          exact heq)
      exact (congrArg Fin.val hfin).symm
  rw [List.head?_append, List.head?_map, take_head _ k hk, hrank,
    List.head?_cons]
  rw [hh0]
  rfl

/-- C6 witness: two stored entries with distinct vectors; querying with
the second vector returns chunk b first at distance zero. -/
theorem store_search_roundtrip_witness :
    store_in_local_faiss ["a", "b"] [[0], [5]] none =
      (none, some ⟨[[0], [5]], ["a", "b"]⟩) ∧
    (search_chunks_local (some ⟨[[0], [5]], ["a", "b"]⟩)
      (EmbArg.vec (([[0], [5]] : List (List Int)).getD 1 [])) 1).1.head? =
      some ((["a", "b"] : List String).getD 1 "") ∧
    sqDist (([[0], [5]] : List (List Int)).getD 1 [])
      (([[0], [5]] : List (List Int)).getD 1 []) = 0 :=
  store_search_roundtrip ["a", "b"] [[0], [5]] none 1 1 (by decide)
    (by decide) (by decide) (by decide) (by decide)
